import Mathlib

/-!
Shallow embedding of the monorepo-hatchet core: the package-graph resolver
(pkg/pkglist: pattern matching, dependency closure, file projection) and the
deletion engine (pkg/cleaner: classification, removal, empty-directory
collapse), together with theorems settling the frozen claims about them.

Paths and package identities are modelled as lists of characters; on the
target platform the path separator is the slash, so filepath.ToSlash is the
identity and is not modelled separately.
-/

namespace Hatchet

/-- A path or identity string, modelled as its list of characters. -/
abbrev Path := List Char

/-- Conversion from a Lean string literal to the character-list model. -/
def str (s : String) : Path := s.data

/-- strings.HasPrefix: the second argument is a leading substring of the first. -/
def startsWith (s pre : Path) : Bool := pre.isPrefixOf s

/-- strings.HasSuffix: the second argument is a trailing substring of the first. -/
def endsWith (s suf : Path) : Bool := suf.isSuffixOf s

/-- strings.Contains: the needle occurs contiguously inside the haystack. -/
def containsSub (hay needle : Path) : Bool :=
  needle.isPrefixOf hay ||
    match hay with
    | [] => false
    | _ :: t => containsSub t needle

/-- strings.TrimSuffix: drop one trailing occurrence of the suffix, if present. -/
def trimSuffix (s suf : Path) : Path :=
  if endsWith s suf then s.take (s.length - suf.length) else s

/-- The segment after the last slash (the last element of strings.Split on the
slash), accumulated left to right. -/
def lastSegment (s : Path) : Path :=
  s.foldl (fun acc c => if c == '/' then [] else acc ++ [c]) []

/-- Membership test in a list of paths, mirroring a Go map-of-struct lookup. -/
def memB (x : Path) : List Path → Bool
  | [] => false
  | y :: ys => if y == x then true else memB x ys

/-- filepath.Join of a clean directory path and a relative file path. -/
def joinPath (d f : Path) : Path := d ++ str "/" ++ f

/-- filepath.Base: the last element of the path after trailing slashes are
removed; the empty path yields a dot and an all-slash path yields a slash. -/
def baseName (s : Path) : Path :=
  if s = [] then str "."
  else
    let t := (s.reverse.dropWhile (fun c => c == '/')).reverse
    let b := lastSegment t
    if b = [] then str "/" else b

/-- matchPackage from pkg/pkglist: exact identity match, then the
recursive-wildcard rules, then the bare-name / trailing-segment rules. -/
def matchPackage (pattern importPath dir : Path) : Bool :=
  if pattern == importPath then true
  else if endsWith pattern (str "/...") then
    let pre := trimSuffix pattern (str "/...")
    if pre == str "." then true
    else if endsWith importPath (str "/" ++ pre) || startsWith importPath (pre ++ str "/") then true
    else if containsSub dir (str "/" ++ pre ++ str "/") then true
    else false
  else if lastSegment importPath == pattern then true
  else if endsWith importPath (str "/" ++ pattern) then true
  else if endsWith dir (str "/" ++ pattern) then true
  else false

theorem isPrefixOf_append_self : ∀ (x y : Path), x.isPrefixOf (x ++ y) = true
  | [], _ => by simp [List.isPrefixOf]
  | a :: as, y => by
    simp only [List.cons_append, List.isPrefixOf, beq_self_eq_true, Bool.true_and]
    exact isPrefixOf_append_self as y

theorem isPrefixOf_length_le : ∀ (x y : Path), x.isPrefixOf y = true → x.length ≤ y.length
  | [], _, _ => by simp
  | _ :: _, [], h => by simp [List.isPrefixOf] at h
  | a :: as, b :: bs, h => by
    simp only [List.isPrefixOf, Bool.and_eq_true] at h
    have := isPrefixOf_length_le as bs h.2
    simp only [List.length_cons]
    omega

theorem endsWith_append (a b : Path) : endsWith (a ++ b) b = true := by
  simp only [endsWith, List.isSuffixOf, List.reverse_append]
  exact isPrefixOf_append_self b.reverse a.reverse

theorem endsWith_false_of_lt (s u : Path) (h : s.length < u.length) : endsWith s u = false := by
  cases hb : endsWith s u with
  | false => rfl
  | true =>
    exfalso
    have := isPrefixOf_length_le u.reverse s.reverse hb
    simp only [List.length_reverse] at this
    omega

theorem startsWith_false_of_lt (s p : Path) (h : s.length < p.length) : startsWith s p = false := by
  cases hb : startsWith s p with
  | false => rfl
  | true =>
    exfalso
    have := isPrefixOf_length_le p s hb
    omega

theorem trimSuffix_append (p s : Path) : trimSuffix (p ++ s) s = p := by
  have h : (p ++ s).length - s.length = p.length := by
    simp [List.length_append]
  simp only [trimSuffix, endsWith_append, if_true, h]
  exact List.take_left p s

/-- Claim C4: matchPackage follows the specified precedence: a/... matches
identity a/b (whatever the directory); a/... does not match identity ab when
the directory does not smuggle in a /a/ segment; a bare pattern pkg1 matches
any identity ending in /pkg1; and a non-wildcard pattern equal to the trailing
segment of the directory matches via the directory fallback. -/
theorem C4_matchPackage_precedence :
    (∀ dir : Path, matchPackage (str "a/...") (str "a/b") dir = true) ∧
    (∀ dir : Path, containsSub dir (str "/a/") = false →
      matchPackage (str "a/...") (str "ab") dir = false) ∧
    (∀ ip dir : Path, endsWith ip (str "/pkg1") = true →
      matchPackage (str "pkg1") ip dir = true) ∧
    (∀ pat ip dir : Path, endsWith pat (str "/...") = false →
      endsWith dir (str "/" ++ pat) = true → matchPackage pat ip dir = true) := by
  refine ⟨fun dir => rfl, fun dir h => ?_, fun ip dir h => ?_, fun pat ip dir h1 h2 => ?_⟩
  · show (if containsSub dir (str "/a/") = true then true else false) = false
    simp [h]
  · unfold matchPackage
    split
    · rfl
    · rw [show endsWith (str "pkg1") (str "/...") = false from by decide]
      simp only [Bool.false_eq_true, if_false]
      split
      · rfl
      · split
        · rfl
        · rename_i h4
          exact absurd h h4
  · unfold matchPackage
    rw [h1]
    simp only [Bool.false_eq_true, if_false]
    split
    · rfl
    · split
      · rfl
      · simp

/-- Witness for C4 at concrete packages: both the wildcard cases, the
trailing-segment case, and the directory-fallback case. -/
theorem C4_matchPackage_precedence_witness :
    matchPackage (str "a/...") (str "a/b") (str "/go/src/a/b") = true ∧
    matchPackage (str "a/...") (str "ab") (str "/go/src/ab") = false ∧
    matchPackage (str "pkg1") (str "repo/pkg1") (str "/go/src/repo/pkg1") = true ∧
    matchPackage (str "pkg1") (str "other/identity") (str "/go/src/pkg1") = true := by
  refine ⟨C4_matchPackage_precedence.1 (str "/go/src/a/b"),
    C4_matchPackage_precedence.2.1 (str "/go/src/ab") (by decide),
    C4_matchPackage_precedence.2.2.1 (str "repo/pkg1") (str "/go/src/repo/pkg1") (by decide),
    C4_matchPackage_precedence.2.2.2 (str "pkg1") (str "other/identity") (str "/go/src/pkg1")
      (by decide) (by decide)⟩

/-- Claim C10: for any non-degenerate prefix p, the recursive-wildcard pattern
p/... matches the package whose identity is exactly p precisely when the
package directory contains /p/ as a substring (the directory fallback);
in particular it never matches through the identity-based wildcard rules. -/
theorem C10_wildcard_never_matches_own_prefix (p dir : Path) (hp : p ≠ str ".") :
    matchPackage (p ++ str "/...") p dir = containsSub dir (str "/" ++ p ++ str "/") := by
  have h1 : ((p ++ str "/...") == p) = false := by
    refine beq_eq_false_iff_ne.2 (fun e => ?_)
    have := congrArg List.length e
    simp [List.length_append, str] at this
  have h2 : endsWith (p ++ str "/...") (str "/...") = true := endsWith_append p (str "/...")
  have h3 : trimSuffix (p ++ str "/...") (str "/...") = p := trimSuffix_append p (str "/...")
  have h4 : (p == str ".") = false := beq_eq_false_iff_ne.2 hp
  have h5 : endsWith p (str "/" ++ p) = false := by
    refine endsWith_false_of_lt p (str "/" ++ p) ?_
    simp [List.length_append, str]
  have h6 : startsWith p (p ++ str "/") = false := by
    refine startsWith_false_of_lt p (p ++ str "/") ?_
    simp [List.length_append, str]
  unfold matchPackage
  rw [h1]
  simp only [Bool.false_eq_true, if_false]
  rw [h2]
  simp only [if_true, h3, h4, Bool.false_eq_true, if_false, h5, h6, Bool.or_self]
  cases hc : containsSub dir (str "/" ++ p ++ str "/") <;> simp [hc]

/-- Witness for C10: the pattern a/... does not match the package with
identity a sitting in a directory without an /a/ segment. -/
theorem C10_wildcard_never_matches_own_prefix_witness :
    matchPackage (str "a/...") (str "a") (str "/go/src/x") = false := by
  have h := C10_wildcard_never_matches_own_prefix (str "a") (str "/go/src/x") (by decide)
  have e : (str "a" ++ str "/...") = str "a/..." := by decide
  rw [e] at h
  rw [h]
  decide

/-- A Go package record as declared by the pkg/pkglist Package struct: its
directory, identity, dependency identities and the file classes the struct
declares (embed, primary source, test source, other). -/
structure Package where
  Dir : Path
  ImportPath : Path
  Deps : List Path
  EmbedFiles : List Path
  GoFiles : List Path
  TestGoFiles : List Path
  OtherFiles : List Path
deriving DecidableEq

instance : Inhabited Package := ⟨⟨[], [], [], [], [], [], []⟩⟩

/-- The identity-keyed record map of the Finder, as an association list. -/
abbrev PkgMap := List (Path × Package)

/-- Go map lookup on the record map. -/
def lookupPkg : PkgMap → Path → Option Package
  | [], _ => none
  | (k, v) :: rest, key => if k == key then some v else lookupPkg rest key

/-- AddDependencies, inner loop over the dependencies of one package: a
dependency not yet kept and present in the record map is appended to the keep
set and to the worklist; the pair returned is the grown keep set and the
newly enqueued identities in order. -/
def addDeps (pkgs : PkgMap) : List Path → List Path → List Path × List Path
  | [], keep => (keep, [])
  | d :: ds, keep =>
    if memB d keep then addDeps pkgs ds keep
    else
      match lookupPkg pkgs d with
      | some _ =>
        let r := addDeps pkgs ds (keep ++ [d])
        (r.1, d :: r.2)
      | none => addDeps pkgs ds keep

/-- AddDependencies, outer worklist loop: process the queue front to back,
expanding each identity that has a record. The fuel argument bounds the
number of iterations; addDependencies supplies enough fuel for the queue to
drain (every enqueued identity is a fresh key of the record map). -/
def addDepsLoop (pkgs : PkgMap) : Nat → List Path → List Path → List Path
  | 0, _, keep => keep
  | _ + 1, [], keep => keep
  | fuel + 1, pkg :: rest, keep =>
    match lookupPkg pkgs pkg with
    | none => addDepsLoop pkgs fuel rest keep
    | some p => addDepsLoop pkgs fuel (rest ++ (addDeps pkgs p.Deps keep).2) (addDeps pkgs p.Deps keep).1

/-- AddDependencies from pkg/pkglist: close the keep set under in-tree
dependencies, starting from a worklist holding the initial keep set. -/
def addDependencies (pkgs : PkgMap) (keep : List Path) : List Path :=
  addDepsLoop pkgs (keep.length + 2 * pkgs.length) keep keep

/-- A small record map used by concrete witnesses. -/
def mkPkg (deps : List Path) : Package :=
  ⟨[], [], deps, [], [], [], []⟩

/-- GetFileList from pkg/pkglist: project the kept packages into a flat file
list; primary sources always, test sources and all other files when tests are
requested, other files outside a testdata segment when they are not, and
embed files always. -/
def getFileList (pkgs : PkgMap) (keep : List Path) (withTests : Bool) : List Path :=
  match pkgs with
  | [] => []
  | (ip, p) :: rest =>
    (if memB ip keep then
      p.GoFiles.map (joinPath p.Dir) ++
        (if withTests then
          p.TestGoFiles.map (joinPath p.Dir) ++ p.OtherFiles.map (joinPath p.Dir)
        else
          (p.OtherFiles.map (joinPath p.Dir)).filter
            (fun f => !(containsSub f (str "/testdata/"))))
        ++ p.EmbedFiles.map (joinPath p.Dir)
    else []) ++ getFileList rest keep withTests

/-- Modelled from the spec: the introspection record delivered by the external
package-metadata extractor carries four source-file classes, among them the
external-test class (XTestGoFiles); the repository decodes such records into
the Package struct, which declares no external-test field, so that class is
dropped by the decoder. -/
structure GoListRecord where
  Dir : Path
  ImportPath : Path
  Deps : List Path
  EmbedFiles : List Path
  GoFiles : List Path
  TestGoFiles : List Path
  XTestGoFiles : List Path
  OtherFiles : List Path
deriving DecidableEq

/-- JSON decoding of an introspection record into the code's Package struct:
only the declared fields are populated; XTestGoFiles has no target field. -/
def decodePackage (r : GoListRecord) : Package :=
  ⟨r.Dir, r.ImportPath, r.Deps, r.EmbedFiles, r.GoFiles, r.TestGoFiles, r.OtherFiles⟩

/-- The package of the repository's own test case named with XTestGoFiles in
TestFinder_GetFileList (pkg/pkglist tests). -/
def xtestRecord : GoListRecord :=
  ⟨str "/test/pkg1", str "pkg1", [], [], [str "main.go"], [str "main_test.go"],
    [str "export_test.go"], []⟩

/-- Claim C1 (refuted on the code, a code bug): with tests requested, the file
projection of a kept package is supposed to include its external-test source
files, and the repository's own test case expects /test/pkg1/export_test.go
in the output; the code's Package struct declares no external-test field, the
decoder drops that class, and GetFileList never emits such files. -/
theorem C1_external_test_files_dropped :
    getFileList [(str "pkg1", decodePackage xtestRecord)] [str "pkg1"] true =
      [str "/test/pkg1/main.go", str "/test/pkg1/main_test.go"] ∧
    str "/test/pkg1/export_test.go" ∉
      getFileList [(str "pkg1", decodePackage xtestRecord)] [str "pkg1"] true ∧
    xtestRecord.XTestGoFiles = [str "export_test.go"] := by decide

theorem memB_iff (x : Path) : ∀ l : List Path, memB x l = true ↔ x ∈ l
  | [] => by simp [memB]
  | y :: ys => by
    by_cases h : y = x
    · subst h
      simp [memB]
    · have hb : (y == x) = false := beq_eq_false_iff_ne.2 h
      have hx : x ≠ y := fun e => h e.symm
      simp [memB, hb, memB_iff x ys, hx]

theorem lookupPkg_isSome_iff (x : Path) :
    ∀ pkgs : PkgMap, (lookupPkg pkgs x).isSome = true ↔ x ∈ pkgs.map Prod.fst
  | [] => by simp [lookupPkg]
  | (k, v) :: rest => by
    by_cases h : k = x
    · subst h
      simp [lookupPkg]
    · have hb : (k == x) = false := beq_eq_false_iff_ne.2 h
      have hx : x ≠ k := fun e => h e.symm
      simp [lookupPkg, hb, lookupPkg_isSome_iff x rest, hx]

theorem addDeps_fst (pkgs : PkgMap) : ∀ (ds keep : List Path),
    (addDeps pkgs ds keep).1 = keep ++ (addDeps pkgs ds keep).2
  | [], keep => by simp [addDeps]
  | d :: ds, keep => by
    simp only [addDeps]
    split
    · exact addDeps_fst pkgs ds keep
    · split
      · have h := addDeps_fst pkgs ds (keep ++ [d])
        simp [h]
      · exact addDeps_fst pkgs ds keep

theorem addDeps_snd (pkgs : PkgMap) : ∀ (ds keep : List Path) (x : Path),
    x ∈ (addDeps pkgs ds keep).2 →
    (lookupPkg pkgs x).isSome = true ∧ ¬ x ∈ keep
  | [], keep, x => by simp [addDeps]
  | d :: ds, keep, x => by
    simp only [addDeps]
    split
    · exact addDeps_snd pkgs ds keep x
    · rename_i hmem
      split
      · rename_i p hl
        intro hx
        rcases List.mem_cons.1 hx with rfl | hx2
        · exact ⟨by simp [hl], fun hk => hmem ((memB_iff x keep).2 hk)⟩
        · have h := addDeps_snd pkgs ds (keep ++ [d]) x hx2
          exact ⟨h.1, fun hk => h.2 (List.mem_append_left _ hk)⟩
      · exact addDeps_snd pkgs ds keep x

theorem addDeps_snd_nodup (pkgs : PkgMap) : ∀ (ds keep : List Path),
    (addDeps pkgs ds keep).2.Nodup
  | [], keep => by simp [addDeps]
  | d :: ds, keep => by
    simp only [addDeps]
    split
    · exact addDeps_snd_nodup pkgs ds keep
    · split
      · refine List.nodup_cons.2 ⟨?_, addDeps_snd_nodup pkgs ds (keep ++ [d])⟩
        intro hd
        have h := addDeps_snd pkgs ds (keep ++ [d]) d hd
        exact h.2 (List.mem_append_right _ (List.mem_singleton.2 rfl))
      · exact addDeps_snd_nodup pkgs ds keep

theorem addDeps_processed (pkgs : PkgMap) : ∀ (ds keep : List Path) (d : Path),
    d ∈ ds → (lookupPkg pkgs d).isSome = true → d ∈ (addDeps pkgs ds keep).1
  | [], _, d => by simp
  | e :: ds, keep, d => by
    intro hd hs
    rcases List.mem_cons.1 hd with rfl | hd2
    · simp only [addDeps]
      split
      · rename_i hm
        rw [addDeps_fst]
        exact List.mem_append_left _ ((memB_iff d keep).1 hm)
      · split
        · rw [addDeps_fst]
          exact List.mem_append_left _ (List.mem_append_right _ (List.mem_singleton.2 rfl))
        · rename_i hl
          rw [hl] at hs
          cases hs
    · simp only [addDeps]
      split
      · exact addDeps_processed pkgs ds keep d hd2 hs
      · split
        · exact addDeps_processed pkgs ds (keep ++ [e]) d hd2 hs
        · exact addDeps_processed pkgs ds keep d hd2 hs

theorem addDeps_fixed (pkgs : PkgMap) : ∀ (ds keep : List Path),
    (∀ d ∈ ds, d ∈ keep ∨ lookupPkg pkgs d = none) →
    addDeps pkgs ds keep = (keep, [])
  | [], keep, _ => by simp [addDeps]
  | d :: ds, keep, h => by
    have hd := h d (List.mem_cons_self d ds)
    have hds : ∀ e ∈ ds, e ∈ keep ∨ lookupPkg pkgs e = none :=
      fun e he => h e (List.mem_cons_of_mem d he)
    simp only [addDeps]
    split
    · exact addDeps_fixed pkgs ds keep hds
    · rename_i hm
      rcases hd with hk | hn
      · exact absurd ((memB_iff d keep).2 hk) hm
      · rw [hn]
        exact addDeps_fixed pkgs ds keep hds

/-- A keep set is closed at an identity when every in-tree dependency of that
identity's record is already kept. -/
def ClosedAt (pkgs : PkgMap) (keep : List Path) (x : Path) : Prop :=
  ∀ p, lookupPkg pkgs x = some p →
    ∀ d ∈ p.Deps, (lookupPkg pkgs d).isSome = true → d ∈ keep

theorem ClosedAt.mono {pkgs : PkgMap} {keep keep2 : List Path} {x : Path}
    (h : ClosedAt pkgs keep x) (hsub : ∀ y ∈ keep, y ∈ keep2) :
    ClosedAt pkgs keep2 x :=
  fun p hp d hd hs => hsub d (h p hp d hd hs)

/-- The number of record-map keys not yet in the keep set; the termination
measure of the worklist loop. -/
def freshCount (pkgs : PkgMap) (keep : List Path) : Nat :=
  ((pkgs.map Prod.fst).toFinset.filter (fun k => ¬ k ∈ keep)).card

theorem freshCount_append (pkgs : PkgMap) (keep q : List Path)
    (hnd : q.Nodup)
    (hq : ∀ x ∈ q, (lookupPkg pkgs x).isSome = true ∧ ¬ x ∈ keep) :
    freshCount pkgs (keep ++ q) + q.length = freshCount pkgs keep := by
  classical
  unfold freshCount
  have h1 : (pkgs.map Prod.fst).toFinset.filter (fun k => ¬ k ∈ keep ++ q) =
      ((pkgs.map Prod.fst).toFinset.filter (fun k => ¬ k ∈ keep)).filter
        (fun k => ¬ k ∈ q) := by
    rw [Finset.filter_filter]
    apply Finset.filter_congr
    intro k _
    simp [List.mem_append, not_or]
  have h2 : ((pkgs.map Prod.fst).toFinset.filter (fun k => ¬ k ∈ keep)).filter
      (fun k => k ∈ q) = q.toFinset := by
    ext k
    simp only [Finset.mem_filter, List.mem_toFinset]
    constructor
    · exact fun h => h.2
    · intro hk
      refine ⟨⟨?_, (hq k hk).2⟩, hk⟩
      exact (lookupPkg_isSome_iff k pkgs).1 (hq k hk).1
  have h3 : (((pkgs.map Prod.fst).toFinset.filter (fun k => ¬ k ∈ keep)).filter
        (fun k => k ∈ q)).card +
      (((pkgs.map Prod.fst).toFinset.filter (fun k => ¬ k ∈ keep)).filter
        (fun k => ¬ k ∈ q)).card =
      ((pkgs.map Prod.fst).toFinset.filter (fun k => ¬ k ∈ keep)).card :=
    Finset.filter_card_add_filter_neg_card_eq_card (fun k => k ∈ q)
  rw [h2] at h3
  have h4 : q.toFinset.card = q.length := List.toFinset_card_of_nodup hnd
  rw [h1]
  omega

theorem freshCount_le (pkgs : PkgMap) (keep : List Path) :
    freshCount pkgs keep ≤ pkgs.length := by
  unfold freshCount
  calc ((pkgs.map Prod.fst).toFinset.filter (fun k => ¬ k ∈ keep)).card
      ≤ (pkgs.map Prod.fst).toFinset.card := Finset.card_filter_le _ _
    _ ≤ (pkgs.map Prod.fst).length := (pkgs.map Prod.fst).toFinset_card_le
    _ = pkgs.length := by simp

theorem addDepsLoop_cons_none {pkgs : PkgMap} {pkg : Path} (n : Nat)
    (rest keep : List Path) (hl : lookupPkg pkgs pkg = none) :
    addDepsLoop pkgs (n + 1) (pkg :: rest) keep = addDepsLoop pkgs n rest keep := by
  simp [addDepsLoop, hl]

theorem addDepsLoop_cons_some {pkgs : PkgMap} {pkg : Path} {p : Package} (n : Nat)
    (rest keep : List Path) (hl : lookupPkg pkgs pkg = some p) :
    addDepsLoop pkgs (n + 1) (pkg :: rest) keep =
      addDepsLoop pkgs n (rest ++ (addDeps pkgs p.Deps keep).2)
        (addDeps pkgs p.Deps keep).1 := by
  simp [addDepsLoop, hl]

theorem addDepsLoop_keep_sub (pkgs : PkgMap) : ∀ (fuel : Nat) (queue keep : List Path)
    (x : Path), x ∈ keep → x ∈ addDepsLoop pkgs fuel queue keep := by
  intro fuel
  induction fuel with
  | zero => intro queue keep x hx; exact hx
  | succ n ih =>
    intro queue keep x hx
    cases queue with
    | nil => exact hx
    | cons pkg rest =>
      cases hl : lookupPkg pkgs pkg with
      | none =>
        rw [addDepsLoop_cons_none n rest keep hl]
        exact ih rest keep x hx
      | some p =>
        rw [addDepsLoop_cons_some n rest keep hl]
        refine ih _ _ x ?_
        rw [addDeps_fst]
        exact List.mem_append_left _ hx

theorem addDepsLoop_mem_src (pkgs : PkgMap) : ∀ (fuel : Nat) (queue keep : List Path)
    (x : Path), x ∈ addDepsLoop pkgs fuel queue keep →
    x ∈ keep ∨ (lookupPkg pkgs x).isSome = true := by
  intro fuel
  induction fuel with
  | zero => intro queue keep x hx; exact Or.inl hx
  | succ n ih =>
    intro queue keep x hx
    cases queue with
    | nil => exact Or.inl hx
    | cons pkg rest =>
      cases hl : lookupPkg pkgs pkg with
      | none =>
        rw [addDepsLoop_cons_none n rest keep hl] at hx
        exact ih rest keep x hx
      | some p =>
        rw [addDepsLoop_cons_some n rest keep hl] at hx
        rcases ih _ _ x hx with h1 | h1
        · rw [addDeps_fst] at h1
          rcases List.mem_append.1 h1 with h2 | h2
          · exact Or.inl h2
          · exact Or.inr (addDeps_snd pkgs p.Deps keep x h2).1
        · exact Or.inr h1

theorem addDepsLoop_closed (pkgs : PkgMap) : ∀ (fuel : Nat) (queue keep : List Path),
    2 * freshCount pkgs keep + queue.length ≤ fuel →
    (∀ x ∈ keep, x ∈ queue ∨ ClosedAt pkgs keep x) →
    ∀ y ∈ addDepsLoop pkgs fuel queue keep,
      ClosedAt pkgs (addDepsLoop pkgs fuel queue keep) y := by
  intro fuel
  induction fuel with
  | zero =>
    intro queue keep hm hinv y hy
    cases queue with
    | nil =>
      rcases hinv y hy with h | h
      · exact absurd h (List.not_mem_nil y)
      · exact h
    | cons a b => simp at hm
  | succ n ih =>
    intro queue keep hm hinv y hy
    cases queue with
    | nil =>
      rcases hinv y hy with h | h
      · exact absurd h (List.not_mem_nil y)
      · exact h
    | cons pkg rest =>
      cases hl : lookupPkg pkgs pkg with
      | none =>
        rw [addDepsLoop_cons_none n rest keep hl] at hy ⊢
        refine ih rest keep ?_ ?_ y hy
        · simp only [List.length_cons] at hm
          omega
        · intro x hx
          rcases hinv x hx with hq | hc
          · rcases List.mem_cons.1 hq with rfl | hr
            · exact Or.inr (fun p hp => by rw [hl] at hp; cases hp)
            · exact Or.inl hr
          · exact Or.inr hc
      | some p =>
        rw [addDepsLoop_cons_some n rest keep hl] at hy ⊢
        have hsnd := addDeps_snd pkgs p.Deps keep
        have hfst := addDeps_fst pkgs p.Deps keep
        have hfresh := freshCount_append pkgs keep (addDeps pkgs p.Deps keep).2
          (addDeps_snd_nodup pkgs p.Deps keep) (fun x hx => hsnd x hx)
        refine ih (rest ++ (addDeps pkgs p.Deps keep).2) (addDeps pkgs p.Deps keep).1 ?_ ?_ y hy
        · rw [hfst]
          simp only [List.length_append, List.length_cons] at hm ⊢
          omega
        · intro x hx
          rw [hfst] at hx
          rcases List.mem_append.1 hx with hk | hq2
          · rcases hinv x hk with hq | hc
            · rcases List.mem_cons.1 hq with rfl | hr
              · refine Or.inr ?_
                intro p2 hp2 d hd hs
                rw [hl] at hp2
                injection hp2 with e
                subst e
                exact addDeps_processed pkgs p.Deps keep d hd hs
              · exact Or.inl (List.mem_append_left _ hr)
            · exact Or.inr (ClosedAt.mono hc
                (fun z hz => by rw [hfst]; exact List.mem_append_left _ hz))
          · exact Or.inl (List.mem_append_right _ hq2)

theorem addDepsLoop_fixed (pkgs : PkgMap) : ∀ (fuel : Nat) (queue keep : List Path),
    (∀ x ∈ keep, ClosedAt pkgs keep x) →
    (∀ x ∈ queue, x ∈ keep) →
    addDepsLoop pkgs fuel queue keep = keep := by
  intro fuel
  induction fuel with
  | zero => intro queue keep _ _; rfl
  | succ n ih =>
    intro queue keep hcl hq
    cases queue with
    | nil => rfl
    | cons pkg rest =>
      cases hl : lookupPkg pkgs pkg with
      | none =>
        rw [addDepsLoop_cons_none n rest keep hl]
        exact ih rest keep hcl (fun x hx => hq x (List.mem_cons_of_mem _ hx))
      | some p =>
        rw [addDepsLoop_cons_some n rest keep hl]
        have hfix : addDeps pkgs p.Deps keep = (keep, []) := by
          refine addDeps_fixed pkgs p.Deps keep ?_
          intro d hd
          cases hs : lookupPkg pkgs d with
          | none => exact Or.inr rfl
          | some pd =>
            exact Or.inl (hcl pkg (hq pkg (List.mem_cons_self _ _)) p hl d hd (by simp [hs]))
        rw [hfix]
        simp only [List.append_nil]
        exact ih rest keep hcl (fun x hx => hq x (List.mem_cons_of_mem _ hx))

/-- Claim C5: dependency closure is idempotent: for every record map and
every keep set, applying AddDependencies twice yields the same keep set as
applying it once. -/
theorem C5_addDependencies_idempotent (pkgs : PkgMap) (keep : List Path) :
    addDependencies pkgs (addDependencies pkgs keep) = addDependencies pkgs keep := by
  have hmeas : 2 * freshCount pkgs keep + keep.length ≤ keep.length + 2 * pkgs.length := by
    have := freshCount_le pkgs keep
    omega
  have hcl : ∀ y ∈ addDependencies pkgs keep,
      ClosedAt pkgs (addDependencies pkgs keep) y :=
    addDepsLoop_closed pkgs (keep.length + 2 * pkgs.length) keep keep hmeas
      (fun x hx => Or.inl hx)
  show addDepsLoop pkgs ((addDependencies pkgs keep).length + 2 * pkgs.length)
      (addDependencies pkgs keep) (addDependencies pkgs keep) = addDependencies pkgs keep
  exact addDepsLoop_fixed pkgs _ _ _ hcl (fun x hx => hx)

/-- Claim C6: dependency closure is monotone (the keep set only grows),
complete over in-tree dependencies (every record-mapped dependency of a kept
package is kept after closure), and never adds an identity that is absent
from the record map. -/
theorem C6_addDependencies_closure (pkgs : PkgMap) (keep : List Path) :
    (∀ x ∈ keep, x ∈ addDependencies pkgs keep) ∧
    (∀ x q, x ∈ addDependencies pkgs keep → lookupPkg pkgs x = some q →
      ∀ d ∈ q.Deps, (lookupPkg pkgs d).isSome = true →
        d ∈ addDependencies pkgs keep) ∧
    (∀ x ∈ addDependencies pkgs keep, x ∈ keep ∨ (lookupPkg pkgs x).isSome = true) := by
  have hmeas : 2 * freshCount pkgs keep + keep.length ≤ keep.length + 2 * pkgs.length := by
    have := freshCount_le pkgs keep
    omega
  refine ⟨?_, ?_, ?_⟩
  · intro x hx
    exact addDepsLoop_keep_sub pkgs _ keep keep x hx
  · intro x q hx hq d hd hs
    exact addDepsLoop_closed pkgs (keep.length + 2 * pkgs.length) keep keep hmeas
      (fun z hz => Or.inl hz) x hx q hq d hd hs
  · intro x hx
    exact addDepsLoop_mem_src pkgs _ keep keep x hx

/-- A record map used by the C6 witness: package a depends on the in-tree
package b and the external identity ext. -/
def demoPkgs : PkgMap :=
  [(str "a", mkPkg [str "b", str "ext"]), (str "b", mkPkg [])]

/-- Witness for C6 on a concrete record map: the initial member a stays, its
in-tree dependency b is pulled in, and every member is either initial or a
record-map key (so ext was never added). -/
theorem C6_addDependencies_closure_witness :
    str "a" ∈ addDependencies demoPkgs [str "a"] ∧
    str "b" ∈ addDependencies demoPkgs [str "a"] ∧
    (str "b" ∈ [str "a"] ∨ (lookupPkg demoPkgs (str "b")).isSome = true) := by
  have h := C6_addDependencies_closure demoPkgs [str "a"]
  exact ⟨h.1 (str "a") (by decide),
    h.2.1 (str "a") (mkPkg [str "b", str "ext"]) (by decide) (by decide)
      (str "b") (by decide) (by decide),
    h.2.2 (str "b") (by decide)⟩

/-- The Cleaner configuration from pkg/cleaner: source root, keep set,
protection toggles, the recorded keepTests option, dry-run flag and the
go-mod-tidy toggle (the tidy step is an external subprocess outside the
filesystem model). The afero filesystem field is the explicit FS argument of
the operations below. -/
structure Cleaner where
  sourceDir : Path
  filesToKeep : List Path
  protectGit : Bool
  protectGoMod : Bool
  keepTests : Bool
  dryRun : Bool
  runGoModTidy : Bool
deriving DecidableEq

/-- A directory listing of the filesystem: a sequence of named regular files
and named subdirectories, in walk order. -/
inductive FS where
  | nil : FS
  | file (name : Path) (rest : FS) : FS
  | dir (name : Path) (children : FS) (rest : FS) : FS
deriving DecidableEq

/-- Whether a directory listing is empty. -/
def isNilFS : FS → Bool
  | FS.nil => true
  | _ => false

/-- The classification decision of Clean's first pass for a regular file at
an absolute path: keep files in the keep set, files under a .git segment
when git protection is on, and go.mod or go.sum outside a testdata segment
when manifest protection is on; everything else is removed. -/
def shouldRemove (c : Cleaner) (p : Path) : Bool :=
  if memB p c.filesToKeep then false
  else if c.protectGit && containsSub p (str "/.git/") then false
  else if c.protectGoMod && !containsSub p (str "/testdata/")
      && (baseName p == str "go.mod" || baseName p == str "go.sum") then false
  else true

/-- Clean's first pass on the listing of directory p: walk every entry in
order, abort on a path whose visit reports an error (the bad set models
filesystem faults surfaced to the walk callback), classify regular files and
collect the paths to remove. -/
def walkFiles (c : Cleaner) (bad : List Path) (p : Path) : FS → Except Path (List Path)
  | FS.nil => Except.ok []
  | FS.file n rest =>
    if memB (joinPath p n) bad then Except.error (joinPath p n)
    else
      match walkFiles c bad p rest with
      | Except.error e => Except.error e
      | Except.ok l =>
        Except.ok ((if shouldRemove c (joinPath p n) then [joinPath p n] else []) ++ l)
  | FS.dir n cs rest =>
    if memB (joinPath p n) bad then Except.error (joinPath p n)
    else
      match walkFiles c bad (joinPath p n) cs with
      | Except.error e => Except.error e
      | Except.ok l1 =>
        match walkFiles c bad p rest with
        | Except.error e => Except.error e
        | Except.ok l2 => Except.ok (l1 ++ l2)

/-- Clean's first pass from the source root; the walk visits the root
directory itself before its entries. -/
def collectToRemove (c : Cleaner) (bad : List Path) (t : FS) : Except Path (List Path) :=
  if memB c.sourceDir bad then Except.error c.sourceDir
  else walkFiles c bad c.sourceDir t

/-- Clean's second pass: remove every collected file from the tree. -/
def removeFiles (rm : List Path) (p : Path) : FS → FS
  | FS.nil => FS.nil
  | FS.file n rest =>
    if memB (joinPath p n) rm then removeFiles rm p rest
    else FS.file n (removeFiles rm p rest)
  | FS.dir n cs rest =>
    FS.dir n (removeFiles rm (joinPath p n) cs) (removeFiles rm p rest)

/-- The children loop of removeEmptyDirs on a directory listing: recurse
into each subdirectory first (skipping a protected .git entry), then drop a
subdirectory whose processed listing is empty, except in dry-run mode. -/
def removeEmptyDirsList (pg dry : Bool) : FS → FS
  | FS.nil => FS.nil
  | FS.file n rest => FS.file n (removeEmptyDirsList pg dry rest)
  | FS.dir n cs rest =>
    if pg && n == str ".git" then FS.dir n cs (removeEmptyDirsList pg dry rest)
    else
      if isNilFS (removeEmptyDirsList pg dry cs) && !dry then removeEmptyDirsList pg dry rest
      else FS.dir n (removeEmptyDirsList pg dry cs) (removeEmptyDirsList pg dry rest)

/-- removeEmptyDirs from pkg/cleaner on one directory: process the children
(skipping a protected .git entry, removing a subdirectory that is left empty
unless in dry-run), then remove the directory itself when it ends up empty,
unless it is the source root or the run is a dry run. -/
def removeEmptyDirsGo (pg dry isRoot : Bool) (cs : FS) : Option FS :=
  if isNilFS (removeEmptyDirsList pg dry cs) && !dry && !isRoot then none
  else some (removeEmptyDirsList pg dry cs)

/-- The outcome of Clean: the error if any, the classification of pass one,
and the filesystem contents under the source root afterwards. -/
structure CleanResult where
  err : Option Path
  toRemove : List Path
  fsAfter : FS
deriving DecidableEq

/-- Clean from pkg/cleaner: classify, then remove unless dry-run, then
collapse empty directories (the root itself is never removed); a walk error
aborts before any removal. -/
def clean (c : Cleaner) (bad : List Path) (t : FS) : CleanResult :=
  match collectToRemove c bad t with
  | Except.error e => ⟨some e, [], t⟩
  | Except.ok rm =>
    match removeEmptyDirsGo c.protectGit c.dryRun true
        (if c.dryRun then t else removeFiles rm c.sourceDir t) with
    | some x => ⟨none, rm, x⟩
    | none => ⟨none, rm, if c.dryRun then t else removeFiles rm c.sourceDir t⟩

/-- The in-memory tree of the repository's own cleaner test (TestCleaner). -/
def testTree : FS :=
  FS.dir (str "pkg1") (FS.file (str "file1.go") (FS.file (str "file2.go") FS.nil))
    (FS.dir (str "pkg2") (FS.file (str "file3.go") (FS.file (str "file4_test.go") FS.nil))
      FS.nil)

/-- A cleaner with the default options of New: protections on, tests not
kept, destructive, no tidy. -/
def cleanerNew (keepFiles : List Path) : Cleaner :=
  ⟨str "/src", keepFiles, true, true, false, false, false⟩

/-- The repository's own cleaner test (TestCleaner), evaluated on the model:
keeping file1.go and file4_test.go removes exactly the other two files. -/
theorem clean_matches_TestCleaner :
    clean (cleanerNew [str "/src/pkg1/file1.go", str "/src/pkg2/file4_test.go"]) [] testTree =
      ⟨none, [str "/src/pkg1/file2.go", str "/src/pkg2/file3.go"],
        FS.dir (str "pkg1") (FS.file (str "file1.go") FS.nil)
          (FS.dir (str "pkg2") (FS.file (str "file4_test.go") FS.nil) FS.nil)⟩ := by decide

theorem shouldRemove_congr (c1 c2 : Cleaner) (h1 : c1.filesToKeep = c2.filesToKeep)
    (h2 : c1.protectGit = c2.protectGit) (h3 : c1.protectGoMod = c2.protectGoMod)
    (p : Path) : shouldRemove c1 p = shouldRemove c2 p := by
  unfold shouldRemove
  rw [h1, h2, h3]

theorem walkFiles_congr (c1 c2 : Cleaner) (bad : List Path)
    (h1 : c1.filesToKeep = c2.filesToKeep) (h2 : c1.protectGit = c2.protectGit)
    (h3 : c1.protectGoMod = c2.protectGoMod) :
    ∀ (t : FS) (p : Path), walkFiles c1 bad p t = walkFiles c2 bad p t
  | FS.nil, p => rfl
  | FS.file n rest, p => by
    simp only [walkFiles]
    rw [walkFiles_congr c1 c2 bad h1 h2 h3 rest p, shouldRemove_congr c1 c2 h1 h2 h3]
  | FS.dir n cs rest, p => by
    simp only [walkFiles]
    rw [walkFiles_congr c1 c2 bad h1 h2 h3 cs (joinPath p n),
      walkFiles_congr c1 c2 bad h1 h2 h3 rest p]

theorem removeEmptyDirsList_dry (pg : Bool) : ∀ t : FS, removeEmptyDirsList pg true t = t
  | FS.nil => rfl
  | FS.file n rest => by
    simp only [removeEmptyDirsList]
    rw [removeEmptyDirsList_dry pg rest]
  | FS.dir n cs rest => by
    simp only [removeEmptyDirsList]
    split
    · rw [removeEmptyDirsList_dry pg rest]
    · rw [removeEmptyDirsList_dry pg cs, removeEmptyDirsList_dry pg rest]
      simp

theorem removeEmptyDirsGo_root (pg dry : Bool) (t : FS) :
    removeEmptyDirsGo pg dry true t = some (removeEmptyDirsList pg dry t) := by
  unfold removeEmptyDirsGo
  simp

/-- Claim C9: Clean is entirely independent of the test-keeping option: for
every source root, keep set, fault set, tree and other options, the outcome
with keepTests set is identical to the outcome with it cleared; the field is
recorded by WithTestKeeping but never read by any operation of the Cleaner. -/
theorem C9_keepTests_never_read (c : Cleaner) (bad : List Path) (t : FS) (b1 b2 : Bool) :
    clean { c with keepTests := b1 } bad t = clean { c with keepTests := b2 } bad t := by
  cases c with
  | mk sd fk pg pm kt dr tidy =>
    have hw := walkFiles_congr ⟨sd, fk, pg, pm, b1, dr, tidy⟩ ⟨sd, fk, pg, pm, b2, dr, tidy⟩
      bad rfl rfl rfl t sd
    show clean ⟨sd, fk, pg, pm, b1, dr, tidy⟩ bad t = clean ⟨sd, fk, pg, pm, b2, dr, tidy⟩ bad t
    unfold clean collectToRemove
    rw [hw]

/-- Claim C2: dry-run Clean leaves the filesystem unchanged and classifies
exactly the same REMOVE set as a destructive Clean on the same state; only
the act of removing is gated on the dry-run flag. -/
theorem C2_dryRun_frame (c : Cleaner) (bad : List Path) (t : FS) :
    (clean { c with dryRun := true } bad t).fsAfter = t ∧
    (clean { c with dryRun := true } bad t).toRemove =
      (clean { c with dryRun := false } bad t).toRemove := by
  cases c with
  | mk sd fk pg pm kt dr tidy =>
    have hw := walkFiles_congr ⟨sd, fk, pg, pm, kt, true, tidy⟩ ⟨sd, fk, pg, pm, kt, false, tidy⟩
      bad rfl rfl rfl t sd
    show (clean ⟨sd, fk, pg, pm, kt, true, tidy⟩ bad t).fsAfter = t ∧
      (clean ⟨sd, fk, pg, pm, kt, true, tidy⟩ bad t).toRemove =
        (clean ⟨sd, fk, pg, pm, kt, false, tidy⟩ bad t).toRemove
    unfold clean collectToRemove
    rw [hw]
    cases hb : memB sd bad with
    | true => exact ⟨by trivial, by trivial⟩
    | false =>
      simp only [Bool.false_eq_true, if_false]
      cases hwk : walkFiles ⟨sd, fk, pg, pm, kt, false, tidy⟩ bad sd t with
      | error e => exact ⟨by trivial, by trivial⟩
      | ok rm =>
        simp only [removeEmptyDirsGo_root, removeEmptyDirsList_dry]
        exact ⟨by trivial, by trivial⟩

/-- Claim C3 (amended): with git protection on, a file under a .git segment
is never classified REMOVE; with manifest protection on, a go.mod or go.sum
outside a testdata segment is never classified REMOVE even when absent from
the keep set; and a manifest-named file inside a testdata segment that is
absent from the keep set is classified REMOVE, provided it is not itself
protected by the version-control rule. -/
theorem C3_protection_classification :
    (∀ (c : Cleaner) (p : Path), c.protectGit = true →
      containsSub p (str "/.git/") = true → shouldRemove c p = false) ∧
    (∀ (c : Cleaner) (p : Path), c.protectGoMod = true →
      containsSub p (str "/testdata/") = false →
      (baseName p = str "go.mod" ∨ baseName p = str "go.sum") →
      shouldRemove c p = false) ∧
    (∀ (c : Cleaner) (p : Path), memB p c.filesToKeep = false →
      containsSub p (str "/testdata/") = true →
      (c.protectGit = false ∨ containsSub p (str "/.git/") = false) →
      shouldRemove c p = true) := by
  refine ⟨?_, ?_, ?_⟩
  · intro c p hpg hgit
    unfold shouldRemove
    split
    · rfl
    · rw [hpg, hgit]
      simp
  · intro c p hpm htd hbase
    unfold shouldRemove
    split
    · rfl
    · split
      · rfl
      · rw [hpm, htd]
        rcases hbase with hb | hb <;> rw [hb] <;> simp
  · intro c p hkeep htd hgit
    unfold shouldRemove
    rw [hkeep]
    simp only [Bool.false_eq_true, if_false]
    have hg : (c.protectGit && containsSub p (str "/.git/")) = false := by
      rcases hgit with h | h <;> rw [h] <;> simp
    rw [hg, htd]
    simp

/-- Witness for C3 at concrete paths under the default protections: a file
under .git is kept, a root go.mod is kept, and a go.mod fixture inside a
testdata directory is removed. -/
theorem C3_protection_classification_witness :
    shouldRemove (cleanerNew []) (str "/src/sub/.git/config") = false ∧
    shouldRemove (cleanerNew []) (str "/src/go.mod") = false ∧
    shouldRemove (cleanerNew []) (str "/src/pkg/testdata/go.mod") = true := by
  refine ⟨C3_protection_classification.1 (cleanerNew []) (str "/src/sub/.git/config")
      (by decide) (by decide),
    C3_protection_classification.2.1 (cleanerNew []) (str "/src/go.mod")
      (by decide) (by decide) (Or.inl (by decide)),
    C3_protection_classification.2.2 (cleanerNew []) (str "/src/pkg/testdata/go.mod")
      (by decide) (by decide) (Or.inr (by decide))⟩

/-- Counterexample for C3 as frozen: a manifest-named file inside a testdata
segment, absent from the keep set, is nonetheless classified KEEP when the
path also lies under a protected .git segment. -/
theorem C3_protection_classification_counterexample :
    shouldRemove (cleanerNew []) (str "/src/.git/testdata/go.mod") = false ∧
    baseName (str "/src/.git/testdata/go.mod") = str "go.mod" ∧
    containsSub (str "/src/.git/testdata/go.mod") (str "/testdata/") = true ∧
    memB (str "/src/.git/testdata/go.mod") (cleanerNew []).filesToKeep = false ∧
    (cleanerNew []).protectGoMod = true := by decide

/-- Claim C8: a walk error aborts Clean before any mutation: the error is
surfaced, no file is removed and no directory is collapsed, so the
filesystem is returned exactly as it was. -/
theorem C8_walk_error_aborts (c : Cleaner) (bad : List Path) (t : FS) (e : Path)
    (h : collectToRemove c bad t = Except.error e) :
    clean c bad t = ⟨some e, [], t⟩ := by
  unfold clean
  rw [h]

/-- Witness for C8: a tree whose only subdirectory faults during the walk; a
file that would otherwise be removed survives untouched. -/
theorem C8_walk_error_aborts_witness :
    collectToRemove (cleanerNew []) [str "/src/bad"]
        (FS.file (str "a.txt") (FS.dir (str "bad") FS.nil FS.nil)) =
      Except.error (str "/src/bad") ∧
    clean (cleanerNew []) [str "/src/bad"]
        (FS.file (str "a.txt") (FS.dir (str "bad") FS.nil FS.nil)) =
      ⟨some (str "/src/bad"), [],
        FS.file (str "a.txt") (FS.dir (str "bad") FS.nil FS.nil)⟩ := by
  refine ⟨by rfl, C8_walk_error_aborts (cleanerNew []) [str "/src/bad"]
    (FS.file (str "a.txt") (FS.dir (str "bad") FS.nil FS.nil)) (str "/src/bad") (by rfl)⟩

/-- No directory in the listing is empty, except under a protected .git
entry, which is exempt together with its whole subtree. -/
def noEmptyDirs (pg : Bool) : FS → Bool
  | FS.nil => true
  | FS.file _ rest => noEmptyDirs pg rest
  | FS.dir n cs rest =>
    (if pg && n == str ".git" then true
     else !isNilFS cs && noEmptyDirs pg cs) && noEmptyDirs pg rest

theorem noEmptyDirs_removeList (pg : Bool) :
    ∀ t : FS, noEmptyDirs pg (removeEmptyDirsList pg false t) = true
  | FS.nil => rfl
  | FS.file n rest => by
    simp only [removeEmptyDirsList, noEmptyDirs]
    exact noEmptyDirs_removeList pg rest
  | FS.dir n cs rest => by
    simp only [removeEmptyDirsList]
    split
    · rename_i hgit
      simp only [noEmptyDirs, hgit, if_true]
      simp [noEmptyDirs_removeList pg rest]
    · rename_i hgit
      split
      · exact noEmptyDirs_removeList pg rest
      · rename_i hcond
        have h1 : isNilFS (removeEmptyDirsList pg false cs) = false := by
          revert hcond
          cases isNilFS (removeEmptyDirsList pg false cs) <;> simp
        have hg : (pg && n == str ".git") = false := by
          revert hgit
          cases pg && n == str ".git" <;> simp
        simp only [noEmptyDirs, hg, Bool.false_eq_true, if_false, h1]
        simp [noEmptyDirs_removeList pg cs, noEmptyDirs_removeList pg rest]

/-- Claim C7: after one depth-first collapse pass in destructive mode the
source root is preserved (the root call never removes it) and no directory
below the root is empty, except within a protected .git subtree: a single
pass suffices. -/
theorem C7_collapse_complete (pg : Bool) (t : FS) :
    (removeEmptyDirsGo pg false true t).isSome = true ∧
    noEmptyDirs pg (removeEmptyDirsList pg false t) = true := by
  refine ⟨?_, noEmptyDirs_removeList pg t⟩
  rw [removeEmptyDirsGo_root]
  rfl

end Hatchet
